import Mathlib

/-!
Verification of the minimax/alpha-beta search engine of `chess_game.py`.

The rules engine (python-chess) is external to the repository; following the
spec's §6, it is embedded as an abstract interface `Rules` providing legal-move
enumeration, move application, terminal queries, the side to move and piece
counts.  The evaluator (`evaluate`, source lines 47-58) and the search
(`minimax`, source lines 60-89) are translated from the source on top of that
interface.  Two translations of the search are given: a pure one (`minimax`),
and a state-threading one (`minimaxS`) that models the source's in-place
`board.push` / `board.pop` mutation of the single shared board explicitly, so
that restoration of the shared position can be stated and proved.
-/

namespace ChessGame

/-- The six chess piece types, as enumerated by the `PIECE_VALUES` table of the
source (lines 38-45). -/
inductive PieceType where
  | pawn
  | knight
  | bishop
  | rook
  | queen
  | king
deriving DecidableEq, Repr

/-- Abstract interface to the external rules engine (python-chess), per spec §6.
`turn b = true` means White (the maximizing side) is to move, matching
`board.turn` / `chess.WHITE`.  `pieces b c t` is the number of pieces of color
`c` (true = White) and type `t`, matching `len(board.pieces(t, c))`. -/
structure Rules (Pos Move : Type) where
  legalMoves : Pos → List Move
  push : Pos → Move → Pos
  isCheckmate : Pos → Bool
  isStalemate : Pos → Bool
  isInsufficientMaterial : Pos → Bool
  isGameOver : Pos → Bool
  turn : Pos → Bool
  pieces : Pos → Bool → PieceType → Nat

variable {Pos Move : Type}

/-- The piece-value table of the source, lines 38-45. -/
def PIECE_VALUES : List (PieceType × Int) :=
  [(PieceType.pawn, 100), (PieceType.knight, 320), (PieceType.bishop, 330),
   (PieceType.rook, 500), (PieceType.queen, 900), (PieceType.king, 20000)]

/-- Translation of `evaluate` (source lines 47-58): checkmate override, draw
override, then material sum plus the side-to-move mobility term. -/
def evaluate (R : Rules Pos Move) (b : Pos) : Int :=
  if R.isCheckmate b then
    if R.turn b then -999999 else 999999
  else if R.isStalemate b || R.isInsufficientMaterial b then 0
  else
    (PIECE_VALUES.foldl
      (fun s pv => s + pv.2 * ((R.pieces b true pv.1 : Int) - (R.pieces b false pv.1 : Int))) 0)
    + 5 * (if R.turn b then ((R.legalMoves b).length : Int) else -((R.legalMoves b).length : Int))

/-- The maximizing move loop of `minimax` (source lines 64-76), abstracted over
the recursive call `g mv alpha beta` that returns the value of the child
reached by `mv` searched with window `(alpha, beta)`.  `best`/`bm` are the
running `max_eval` / `best_move`; the early `break` on `beta <= alpha` is the
first branch of the `if`. -/
def maxLoop (g : Move → Int → Int → Int) :
    List Move → Int → Int → Int → Option Move → Int × Option Move
  | [], _, _, best, bm => (best, bm)
  | mv :: rest, alpha, beta, best, bm =>
    let val := g mv alpha beta
    let best' := if best < val then val else best
    let bm' := if best < val then some mv else bm
    let alpha' := max alpha val
    if beta ≤ alpha' then (best', bm')
    else maxLoop g rest alpha' beta best' bm'

/-- The minimizing move loop of `minimax` (source lines 77-89), symmetric to
`maxLoop` with `min_eval` and the `beta` update. -/
def minLoop (g : Move → Int → Int → Int) :
    List Move → Int → Int → Int → Option Move → Int × Option Move
  | [], _, _, best, bm => (best, bm)
  | mv :: rest, alpha, beta, best, bm =>
    let val := g mv alpha beta
    let best' := if val < best then val else best
    let bm' := if val < best then some mv else bm
    let beta' := min beta val
    if beta' ≤ alpha then (best', bm')
    else minLoop g rest alpha beta' best' bm'

/-- Pure translation of `minimax` (source lines 60-89).  The base case fires on
`depth == 0 or board.is_game_over()`; otherwise the maximizing or minimizing
loop runs over `board.legal_moves` with the sentinel initial best values
`-10**9` / `10**9` and no initial best move. -/
def minimax (R : Rules Pos Move) : Nat → Pos → Int → Int → Bool → Int × Option Move
  | 0, p, _, _, _ => (evaluate R p, none)
  | d + 1, p, alpha, beta, maximizing =>
    if R.isGameOver p then (evaluate R p, none)
    else if maximizing then
      maxLoop (fun mv a b => (minimax R d (R.push p mv) a b false).1)
        (R.legalMoves p) alpha beta (-(10 ^ 9)) none
    else
      minLoop (fun mv a b => (minimax R d (R.push p mv) a b true).1)
        (R.legalMoves p) alpha beta (10 ^ 9) none

/-!  State-threading translation: the shared mutable board of the source is a
pair of the current position and the stack of previous positions; `board.push`
saves the current position and moves to the child, `board.pop` restores the
saved one (push/pop are exact inverses per spec §6). -/

/-- Model of `board.push(mv)` on the shared board state. -/
def pushS (R : Rules Pos Move) (s : Pos × List Pos) (mv : Move) : Pos × List Pos :=
  (R.push s.1 mv, s.1 :: s.2)

/-- Model of `board.pop()` on the shared board state: restore the saved
position (identity on an empty stack, which the search never produces). -/
def popS (s : Pos × List Pos) : Pos × List Pos :=
  match s.2 with
  | [] => s
  | q :: t => (q, t)

/-- Maximizing loop of the state-threading search: `board.push(mv)`, recursive
call on the mutated board, `board.pop()`, then the same updates and early
`break` as `maxLoop` (source lines 66-75). -/
def maxLoopS (R : Rules Pos Move)
    (gS : Int → Int → Pos × List Pos → (Int × Option Move) × (Pos × List Pos)) :
    List Move → Pos × List Pos → Int → Int → Int → Option Move →
      (Int × Option Move) × (Pos × List Pos)
  | [], s, _, _, best, bm => ((best, bm), s)
  | mv :: rest, s, alpha, beta, best, bm =>
    let r := gS alpha beta (pushS R s mv)
    let s' := popS r.2
    let val := r.1.1
    let best' := if best < val then val else best
    let bm' := if best < val then some mv else bm
    let alpha' := max alpha val
    if beta ≤ alpha' then ((best', bm'), s')
    else maxLoopS R gS rest s' alpha' beta best' bm'

/-- Minimizing loop of the state-threading search (source lines 79-88). -/
def minLoopS (R : Rules Pos Move)
    (gS : Int → Int → Pos × List Pos → (Int × Option Move) × (Pos × List Pos)) :
    List Move → Pos × List Pos → Int → Int → Int → Option Move →
      (Int × Option Move) × (Pos × List Pos)
  | [], s, _, _, best, bm => ((best, bm), s)
  | mv :: rest, s, alpha, beta, best, bm =>
    let r := gS alpha beta (pushS R s mv)
    let s' := popS r.2
    let val := r.1.1
    let best' := if val < best then val else best
    let bm' := if val < best then some mv else bm
    let beta' := min beta val
    if beta' ≤ alpha then ((best', bm'), s')
    else minLoopS R gS rest s' alpha beta' best' bm'

/-- State-threading translation of `minimax` (source lines 60-89), making the
in-place mutation of the single shared board explicit. -/
def minimaxS (R : Rules Pos Move) :
    Nat → Pos × List Pos → Int → Int → Bool → (Int × Option Move) × (Pos × List Pos)
  | 0, s, _, _, _ => ((evaluate R s.1, none), s)
  | d + 1, s, alpha, beta, maximizing =>
    if R.isGameOver s.1 then ((evaluate R s.1, none), s)
    else if maximizing then
      maxLoopS R (fun a b s' => minimaxS R d s' a b false)
        (R.legalMoves s.1) s alpha beta (-(10 ^ 9)) none
    else
      minLoopS R (fun a b s' => minimaxS R d s' a b true)
        (R.legalMoves s.1) s alpha beta (10 ^ 9) none

/-!  Unpruned full minimax, the reference point of the alpha-beta equivalence
claim: the same game tree walked to the same depth with the same leaf
evaluation and the same sentinel initial values, but no window and no early
exit. -/

/-- Fold of `max` over the values of the moves, from an initial accumulator. -/
def foldMax (g : Move → Int) : List Move → Int → Int
  | [], acc => acc
  | mv :: rest, acc => foldMax g rest (max acc (g mv))

/-- Fold of `min` over the values of the moves, from an initial accumulator. -/
def foldMin (g : Move → Int) : List Move → Int → Int
  | [], acc => acc
  | mv :: rest, acc => foldMin g rest (min acc (g mv))

/-- Unpruned full minimax over the same tree as `minimax`: same base case, same
move enumeration, same sentinel initial accumulators, no pruning. -/
def fullMinimax (R : Rules Pos Move) : Nat → Pos → Bool → Int
  | 0, p, _ => evaluate R p
  | d + 1, p, maximizing =>
    if R.isGameOver p then evaluate R p
    else if maximizing then
      foldMax (fun mv => fullMinimax R d (R.push p mv) false) (R.legalMoves p) (-(10 ^ 9))
    else
      foldMin (fun mv => fullMinimax R d (R.push p mv) true) (R.legalMoves p) (10 ^ 9)

/-!  Instrumentation for the tie-break claim: the list of child values the
maximizing (resp. minimizing) loop actually computes, with the window evolving
and the loop truncating exactly where the `break` fires. -/

/-- The child values computed by `maxLoop`, in order, truncated at the prune. -/
def maxLoopVals (g : Move → Int → Int → Int) : List Move → Int → Int → List Int
  | [], _, _ => []
  | mv :: rest, alpha, beta =>
    let val := g mv alpha beta
    if beta ≤ max alpha val then [val]
    else val :: maxLoopVals g rest (max alpha val) beta

/-- The child values computed by `minLoop`, in order, truncated at the prune. -/
def minLoopVals (g : Move → Int → Int → Int) : List Move → Int → Int → List Int
  | [], _, _ => []
  | mv :: rest, alpha, beta =>
    let val := g mv alpha beta
    if min beta val ≤ alpha then [val]
    else val :: minLoopVals g rest alpha (min beta val)

/-- The move paired with the first occurrence of the value `v` in `vals`. -/
def firstAt (moves : List Move) (vals : List Int) (v : Int) : Option Move :=
  match moves, vals with
  | mv :: ms, x :: xs => if x = v then some mv else firstAt ms xs v
  | _, _ => none

/-!  Fuel-indexed translation of `minimax` with the depth kept as a (possibly
negative) integer, exactly as in Python: the base-case guard is
`depth == 0 or board.is_game_over()` and the recursion passes `depth - 1`.
`none` means the fuel ran out before the recursion bottomed out; the code
itself has no such bound, so every `some` result is the value the source
computes. -/

/-- Maximizing loop of the fuel-indexed search, propagating fuel exhaustion. -/
def maxLoopI (g : Move → Int → Int → Option Int) :
    List Move → Int → Int → Int → Option Move → Option (Int × Option Move)
  | [], _, _, best, bm => some (best, bm)
  | mv :: rest, alpha, beta, best, bm =>
    match g mv alpha beta with
    | none => none
    | some val =>
      let best' := if best < val then val else best
      let bm' := if best < val then some mv else bm
      let alpha' := max alpha val
      if beta ≤ alpha' then some (best', bm')
      else maxLoopI g rest alpha' beta best' bm'

/-- Minimizing loop of the fuel-indexed search, propagating fuel exhaustion. -/
def minLoopI (g : Move → Int → Int → Option Int) :
    List Move → Int → Int → Int → Option Move → Option (Int × Option Move)
  | [], _, _, best, bm => some (best, bm)
  | mv :: rest, alpha, beta, best, bm =>
    match g mv alpha beta with
    | none => none
    | some val =>
      let best' := if val < best then val else best
      let bm' := if val < best then some mv else bm
      let beta' := min beta val
      if beta' ≤ alpha then some (best', bm')
      else minLoopI g rest alpha beta' best' bm'

/-- Fuel-indexed translation of `minimax` with integer depth, faithful to the
Python guard `depth == 0 or board.is_game_over()` (source line 61): a negative
depth never triggers the depth part of the guard. -/
def minimaxI (R : Rules Pos Move) :
    Nat → Int → Pos → Int → Int → Bool → Option (Int × Option Move)
  | 0, _, _, _, _, _ => none
  | fuel + 1, depth, p, alpha, beta, maximizing =>
    if depth = 0 || R.isGameOver p then some (evaluate R p, none)
    else if maximizing then
      maxLoopI (fun mv a b => (minimaxI R fuel (depth - 1) (R.push p mv) a b false).map Prod.fst)
        (R.legalMoves p) alpha beta (-(10 ^ 9)) none
    else
      minLoopI (fun mv a b => (minimaxI R fuel (depth - 1) (R.push p mv) a b true).map Prod.fst)
        (R.legalMoves p) alpha beta (10 ^ 9) none

/-!  Interleaving model of the driver's AI dispatch (source lines 230-246,
266-330).  The driver thread repeatedly runs `start_ai_if_needed`, which spawns
an `ai_worker` thread when `ai_enabled and not board.turn and not ai_thinking
and not board.is_game_over()`.  The spawned worker sets `ai_thinking = True` as
its own first statement (line 232), computes, pushes the chosen move, and
clears the flag (lines 236-240).  A worker is modeled by its progress stage:
`started` (thread created, first statement not yet executed) or `flagged`
(flag set, search in progress); each transition is one atomically executed
region of one thread. -/

/-- Progress stage of one spawned `ai_worker` thread. -/
inductive WStage where
  | started
  | flagged
deriving DecidableEq, Repr

/-- Driver state: the `ai_thinking` flag, whether it is White's turn, the
`ai_enabled` flag, whether the game is over, and the in-flight workers. -/
structure DrvState where
  thinking : Bool
  turnW : Bool
  enabled : Bool
  over : Bool
  workers : List WStage
deriving DecidableEq, Repr

/-- One interleaving step of the driver/worker system.  `spawn` is the guarded
thread creation of `start_ai_if_needed` (lines 244-246); `setFlag` is the
worker's `ai_thinking = True` (line 232); `finish` is the worker's push of the
chosen move and `ai_thinking = False` (lines 236-240), after which Black has
moved and it is White's turn. -/
inductive DrvStep : DrvState → DrvState → Prop where
  | spawn (s : DrvState) (h : s.enabled = true ∧ s.turnW = false ∧ s.thinking = false ∧
      s.over = false) :
      DrvStep s { s with workers := WStage.started :: s.workers }
  | setFlag (s : DrvState) (w1 w2 : List WStage) (h : s.workers = w1 ++ WStage.started :: w2) :
      DrvStep s { s with workers := w1 ++ WStage.flagged :: w2, thinking := true }
  | finish (s : DrvState) (w1 w2 : List WStage) (h : s.workers = w1 ++ WStage.flagged :: w2) :
      DrvStep s { s with workers := w1 ++ w2, thinking := false, turnW := true }

/-- Driver state reachable from `s` by interleaved execution. -/
def DrvReach (s t : DrvState) : Prop := Relation.ReflTransGen DrvStep s t

/-- Initial driver state right after the human's move with the AI enabled:
Black to move, no worker in flight, flag clear, game not over. -/
def drvInit : DrvState :=
  { thinking := false, turnW := false, enabled := true, over := false, workers := [] }

/-!  A small concrete rules instance used to exercise the theorems on explicit
inputs.  Position 0 is a live position with White to move and two moves: move 0
reaches the live position 1 (from which play is forced through position 2 into
the checkmate 3 — a forced mate in two), move 1 reaches the checkmate 4
directly (a mate in one).  All positions have empty piece placement; the side
to move alternates along every push, checkmates are game over, and every live
position has a move, so the instance satisfies every chess-derived hypothesis
used in the theorems below. -/

/-- `ReachN R n p q` holds when `q` is obtained from `p` by pushing at most `n`
legal moves in sequence. -/
def ReachN (R : Rules Pos Move) : Nat → Pos → Pos → Prop
  | 0, p, q => q = p
  | n + 1, p, q => q = p ∨ ∃ mv ∈ R.legalMoves p, ReachN R n (R.push p mv) q

/-- Concrete rules instance on five positions and two move labels. -/
def Rc : Rules (Fin 5) (Fin 2) where
  legalMoves := ![[0, 1], [0], [0], [], []]
  push := fun p m => if p = 0 then (if m = 0 then 1 else 4) else ![1, 2, 3, 2, 2] p
  isCheckmate := ![false, false, false, true, true]
  isStalemate := fun _ => false
  isInsufficientMaterial := fun _ => false
  isGameOver := ![false, false, false, true, true]
  turn := ![true, false, true, false, false]
  pieces := fun _ _ _ => 0

/-!  Basic facts about the fold of `max` / `min` used by the unpruned minimax. -/

theorem foldMax_acc_le (g : Move → Int) :
    ∀ (moves : List Move) (a : Int), a ≤ foldMax g moves a := by
  intro moves
  induction moves with
  | nil => intro a; exact le_refl a
  | cons mv rest ih =>
    intro a
    exact le_trans (le_max_left a (g mv)) (ih (max a (g mv)))

theorem foldMax_max (g : Move → Int) :
    ∀ (moves : List Move) (a b : Int),
      foldMax g moves (max a b) = max a (foldMax g moves b) := by
  intro moves
  induction moves with
  | nil => intro a b; rfl
  | cons mv rest ih =>
    intro a b
    simp only [foldMax, max_assoc]
    exact ih a (max b (g mv))

theorem foldMax_le (g : Move → Int) :
    ∀ (moves : List Move) (a c : Int), (∀ m ∈ moves, g m ≤ c) → a ≤ c →
      foldMax g moves a ≤ c := by
  intro moves
  induction moves with
  | nil => intro a c _ ha; exact ha
  | cons mv rest ih =>
    intro a c hg ha
    exact ih _ _ (fun m hm => hg m (List.mem_cons_of_mem mv hm))
      (max_le ha (hg mv (List.mem_cons_self mv rest)))

theorem foldMin_le_acc (g : Move → Int) :
    ∀ (moves : List Move) (a : Int), foldMin g moves a ≤ a := by
  intro moves
  induction moves with
  | nil => intro a; exact le_refl a
  | cons mv rest ih =>
    intro a
    exact le_trans (ih (min a (g mv))) (min_le_left a (g mv))

theorem foldMin_min (g : Move → Int) :
    ∀ (moves : List Move) (a b : Int),
      foldMin g moves (min a b) = min a (foldMin g moves b) := by
  intro moves
  induction moves with
  | nil => intro a b; rfl
  | cons mv rest ih =>
    intro a b
    simp only [foldMin, min_assoc]
    exact ih a (min b (g mv))

theorem foldMin_ge (g : Move → Int) :
    ∀ (moves : List Move) (a c : Int), (∀ m ∈ moves, c ≤ g m) → c ≤ a →
      c ≤ foldMin g moves a := by
  intro moves
  induction moves with
  | nil => intro a c _ ha; exact ha
  | cons mv rest ih =>
    intro a c hg ha
    exact ih _ _ (fun m hm => hg m (List.mem_cons_of_mem mv hm))
      (le_min ha (hg mv (List.mem_cons_self mv rest)))

/-- The source's strict-improvement update written as a `max`. -/
theorem ite_lt_max (a b : Int) : (if a < b then b else a) = max a b := by
  rcases le_or_lt b a with h | h
  · simp [not_lt.mpr h, max_eq_left h]
  · simp [h, max_eq_right (le_of_lt h)]

/-- The source's strict-improvement update written as a `min`. -/
theorem ite_lt_min (a b : Int) : (if b < a then b else a) = min a b := by
  rcases le_or_lt a b with h | h
  · simp [not_lt.mpr h, min_eq_left h]
  · simp [h, min_eq_right (le_of_lt h)]

/-!  Basic facts about the pruning loops. -/

theorem maxLoop_fst_ge (g : Move → Int → Int → Int) :
    ∀ (moves : List Move) (alpha beta best : Int) (bm : Option Move),
      best ≤ (maxLoop g moves alpha beta best bm).1 := by
  intro moves
  induction moves with
  | nil => intro alpha beta best bm; exact le_refl best
  | cons mv rest ih =>
    intro alpha beta best bm
    simp only [maxLoop]
    by_cases h1 : beta ≤ max alpha (g mv alpha beta)
    · simp only [if_pos h1]
      by_cases h2 : best < g mv alpha beta
      · simp only [if_pos h2]; exact le_of_lt h2
      · simp only [if_neg h2]; exact le_refl best
    · simp only [if_neg h1]
      by_cases h2 : best < g mv alpha beta
      · simp only [if_pos h2]
        exact le_trans (le_of_lt h2) (ih _ _ _ _)
      · simp only [if_neg h2]
        exact ih _ _ _ _

theorem minLoop_fst_le (g : Move → Int → Int → Int) :
    ∀ (moves : List Move) (alpha beta best : Int) (bm : Option Move),
      (minLoop g moves alpha beta best bm).1 ≤ best := by
  intro moves
  induction moves with
  | nil => intro alpha beta best bm; exact le_refl best
  | cons mv rest ih =>
    intro alpha beta best bm
    simp only [minLoop]
    by_cases h1 : min beta (g mv alpha beta) ≤ alpha
    · simp only [if_pos h1]
      by_cases h2 : g mv alpha beta < best
      · simp only [if_pos h2]; exact le_of_lt h2
      · simp only [if_neg h2]; exact le_refl best
    · simp only [if_neg h1]
      by_cases h2 : g mv alpha beta < best
      · simp only [if_pos h2]
        exact le_trans (ih _ _ _ _) (le_of_lt h2)
      · simp only [if_neg h2]
        exact ih _ _ _ _

theorem maxLoop_fst_le (g : Move → Int → Int → Int) (c : Int) :
    ∀ (moves : List Move) (alpha beta best : Int) (bm : Option Move),
      (∀ mv ∈ moves, ∀ a b, g mv a b ≤ c) → best ≤ c →
      (maxLoop g moves alpha beta best bm).1 ≤ c := by
  intro moves
  induction moves with
  | nil => intro alpha beta best bm _ hb; exact hb
  | cons mv rest ih =>
    intro alpha beta best bm hg hb
    have hv : g mv alpha beta ≤ c := hg mv (List.mem_cons_self mv rest) alpha beta
    have hb' : (if best < g mv alpha beta then g mv alpha beta else best) ≤ c := by
      by_cases h2 : best < g mv alpha beta
      · simp only [if_pos h2]; exact hv
      · simp only [if_neg h2]; exact hb
    simp only [maxLoop]
    by_cases h1 : beta ≤ max alpha (g mv alpha beta)
    · simp only [if_pos h1]; exact hb'
    · simp only [if_neg h1]
      exact ih _ _ _ _ (fun m hm => hg m (List.mem_cons_of_mem mv hm)) hb'

theorem minLoop_fst_ge (g : Move → Int → Int → Int) (c : Int) :
    ∀ (moves : List Move) (alpha beta best : Int) (bm : Option Move),
      (∀ mv ∈ moves, ∀ a b, c ≤ g mv a b) → c ≤ best →
      c ≤ (minLoop g moves alpha beta best bm).1 := by
  intro moves
  induction moves with
  | nil => intro alpha beta best bm _ hb; exact hb
  | cons mv rest ih =>
    intro alpha beta best bm hg hb
    have hv : c ≤ g mv alpha beta := hg mv (List.mem_cons_self mv rest) alpha beta
    have hb' : c ≤ (if g mv alpha beta < best then g mv alpha beta else best) := by
      by_cases h2 : g mv alpha beta < best
      · simp only [if_pos h2]; exact hv
      · simp only [if_neg h2]; exact hb
    simp only [minLoop]
    by_cases h1 : min beta (g mv alpha beta) ≤ alpha
    · simp only [if_pos h1]; exact hb'
    · simp only [if_neg h1]
      exact ih _ _ _ _ (fun m hm => hg m (List.mem_cons_of_mem mv hm)) hb'

theorem maxLoop_cons_fst_ge (g : Move → Int → Int → Int) (mv : Move)
    (rest : List Move) (alpha beta best : Int) (bm : Option Move) :
    g mv alpha beta ≤ (maxLoop g (mv :: rest) alpha beta best bm).1 := by
  have hb : g mv alpha beta ≤ (if best < g mv alpha beta then g mv alpha beta else best) := by
    by_cases h2 : best < g mv alpha beta
    · simp only [if_pos h2]; exact le_refl _
    · simp only [if_neg h2]; exact le_of_not_lt h2
  simp only [maxLoop]
  by_cases h1 : beta ≤ max alpha (g mv alpha beta)
  · simp only [if_pos h1]; exact hb
  · simp only [if_neg h1]
    exact le_trans hb (maxLoop_fst_ge g rest _ _ _ _)

theorem minLoop_cons_fst_le (g : Move → Int → Int → Int) (mv : Move)
    (rest : List Move) (alpha beta best : Int) (bm : Option Move) :
    (minLoop g (mv :: rest) alpha beta best bm).1 ≤ g mv alpha beta := by
  have hb : (if g mv alpha beta < best then g mv alpha beta else best) ≤ g mv alpha beta := by
    by_cases h2 : g mv alpha beta < best
    · simp only [if_pos h2]; exact le_refl _
    · simp only [if_neg h2]; exact le_of_not_lt h2
  simp only [minLoop]
  by_cases h1 : min beta (g mv alpha beta) ≤ alpha
  · simp only [if_pos h1]; exact hb
  · simp only [if_neg h1]
    exact le_trans (minLoop_fst_le g rest _ _ _ _) hb

/-!  One-step unfolding of the loops with the strict-improvement update
rewritten as `max` / `min`. -/

theorem maxLoop_cons (g : Move → Int → Int → Int) (mv : Move) (rest : List Move)
    (alpha beta best : Int) (bm : Option Move) :
    maxLoop g (mv :: rest) alpha beta best bm =
      if beta ≤ max alpha (g mv alpha beta) then
        (max best (g mv alpha beta), if best < g mv alpha beta then some mv else bm)
      else
        maxLoop g rest (max alpha (g mv alpha beta)) beta (max best (g mv alpha beta))
          (if best < g mv alpha beta then some mv else bm) := by
  simp only [maxLoop, ite_lt_max]

theorem minLoop_cons (g : Move → Int → Int → Int) (mv : Move) (rest : List Move)
    (alpha beta best : Int) (bm : Option Move) :
    minLoop g (mv :: rest) alpha beta best bm =
      if min beta (g mv alpha beta) ≤ alpha then
        (min best (g mv alpha beta), if g mv alpha beta < best then some mv else bm)
      else
        minLoop g rest alpha (min beta (g mv alpha beta)) (min best (g mv alpha beta))
          (if g mv alpha beta < best then some mv else bm) := by
  simp only [minLoop, ite_lt_min]

theorem foldMax_cons (gf : Move → Int) (mv : Move) (rest : List Move) (best : Int) :
    foldMax gf (mv :: rest) best = max (gf mv) (foldMax gf rest best) := by
  show foldMax gf rest (max best (gf mv)) = _
  rw [max_comm best (gf mv), foldMax_max]

theorem foldMax_acc_comm (gf : Move → Int) (rest : List Move) (a b : Int) :
    foldMax gf rest (max a b) = max b (foldMax gf rest a) := by
  rw [max_comm a b, foldMax_max]

theorem foldMin_cons (gf : Move → Int) (mv : Move) (rest : List Move) (best : Int) :
    foldMin gf (mv :: rest) best = min (gf mv) (foldMin gf rest best) := by
  show foldMin gf rest (min best (gf mv)) = _
  rw [min_comm best (gf mv), foldMin_min]

theorem foldMin_acc_comm (gf : Move → Int) (rest : List Move) (a b : Int) :
    foldMin gf rest (min a b) = min b (foldMin gf rest a) := by
  rw [min_comm a b, foldMin_min]

/-!  The fail-soft property of the pruning loops: relative to the unpruned fold
of the children's true values, the loop's result is exact when it lies strictly
inside the window, an upper bound on the true value when it fails low, and a
lower bound when it fails high. -/

theorem maxLoop_failsoft (g : Move → Int → Int → Int) (gf : Move → Int) (beta : Int) :
    ∀ (moves : List Move),
      (∀ mv ∈ moves, ∀ a, a < beta →
        (g mv a beta < beta → gf mv ≤ g mv a beta) ∧ (a < g mv a beta → g mv a beta ≤ gf mv)) →
      ∀ (alpha best : Int) (bm : Option Move), alpha < beta →
        ((maxLoop g moves alpha beta best bm).1 < beta →
          foldMax gf moves best ≤ (maxLoop g moves alpha beta best bm).1) ∧
        (alpha < (maxLoop g moves alpha beta best bm).1 →
          (maxLoop g moves alpha beta best bm).1 ≤ foldMax gf moves best) := by
  intro moves
  induction moves with
  | nil => intro _ alpha best bm _; exact ⟨fun _ => le_refl best, fun _ => le_refl best⟩
  | cons mv rest ih =>
    intro hg alpha best bm hab
    obtain ⟨hup, hlo⟩ := hg mv (List.mem_cons_self mv rest) alpha hab
    have hgrest := fun m hm => hg m (List.mem_cons_of_mem mv hm)
    rw [maxLoop_cons, foldMax_cons]
    by_cases h1 : beta ≤ max alpha (g mv alpha beta)
    · rw [if_pos h1]
      have hvb : beta ≤ g mv alpha beta := by
        rcases max_choice alpha (g mv alpha beta) with h | h <;> omega
      constructor
      · intro hlt
        simp only [] at hlt
        have h2 := le_max_right best (g mv alpha beta)
        omega
      · intro hgt
        simp only [] at hgt ⊢
        have hF := foldMax_acc_le gf rest best
        have hmr := le_max_right (gf mv) (foldMax gf rest best)
        have hml := le_max_left (gf mv) (foldMax gf rest best)
        rcases max_choice best (g mv alpha beta) with h | h
        · rw [h] at hgt ⊢; omega
        · rw [h] at hgt ⊢
          have := hlo hgt
          omega
    · rw [if_neg h1]
      have h1' : max alpha (g mv alpha beta) < beta := lt_of_not_le h1
      obtain ⟨ih1, ih2⟩ := ih hgrest (max alpha (g mv alpha beta))
        (max best (g mv alpha beta))
        (if best < g mv alpha beta then some mv else bm) h1'
      rw [foldMax_acc_comm] at ih1 ih2
      have hF := foldMax_acc_le gf rest best
      have hL := maxLoop_fst_ge g rest (max alpha (g mv alpha beta)) beta
        (max best (g mv alpha beta)) (if best < g mv alpha beta then some mv else bm)
      have hvab : g mv alpha beta < beta := by
        have := le_max_right alpha (g mv alpha beta); omega
      have hmr := le_max_right (gf mv) (foldMax gf rest best)
      have hml := le_max_left (gf mv) (foldMax gf rest best)
      constructor
      · intro hlt
        have h3 := ih1 hlt
        have h4 : gf mv ≤ g mv alpha beta := hup hvab
        rcases max_choice (g mv alpha beta) (foldMax gf rest best) with h | h <;>
          rcases max_choice (gf mv) (foldMax gf rest best) with h' | h' <;>
            rw [h] at h3 <;> rw [h'] <;> omega
      · intro hgt
        by_cases h5 : max alpha (g mv alpha beta) < (maxLoop g rest (max alpha (g mv alpha beta))
            beta (max best (g mv alpha beta)) (if best < g mv alpha beta then some mv else bm)).1
        · have h3 := ih2 h5
          rcases max_choice (g mv alpha beta) (foldMax gf rest best) with h | h
          · rw [h] at h3
            by_cases h6 : (maxLoop g rest (max alpha (g mv alpha beta)) beta
                (max best (g mv alpha beta)) (if best < g mv alpha beta then some mv else bm)).1
                ≤ foldMax gf rest best
            · omega
            · have h7 : alpha < g mv alpha beta := by
                rcases max_choice best (g mv alpha beta) with hh | hh <;> omega
              have h8 := hlo h7
              omega
          · rw [h] at h3; omega
        · have h6 : (maxLoop g rest (max alpha (g mv alpha beta)) beta
              (max best (g mv alpha beta)) (if best < g mv alpha beta then some mv else bm)).1
              ≤ max alpha (g mv alpha beta) := le_of_not_lt h5
          rcases max_choice alpha (g mv alpha beta) with h | h
          · rw [h] at h6; omega
          · rw [h] at h6
            have h7 : alpha < g mv alpha beta := by omega
            have h8 := hlo h7
            omega

theorem minLoop_failsoft (g : Move → Int → Int → Int) (gf : Move → Int) (alpha : Int) :
    ∀ (moves : List Move),
      (∀ mv ∈ moves, ∀ b, alpha < b →
        (g mv alpha b < b → gf mv ≤ g mv alpha b) ∧ (alpha < g mv alpha b → g mv alpha b ≤ gf mv)) →
      ∀ (beta best : Int) (bm : Option Move), alpha < beta →
        ((minLoop g moves alpha beta best bm).1 < beta →
          foldMin gf moves best ≤ (minLoop g moves alpha beta best bm).1) ∧
        (alpha < (minLoop g moves alpha beta best bm).1 →
          (minLoop g moves alpha beta best bm).1 ≤ foldMin gf moves best) := by
  intro moves
  induction moves with
  | nil => intro _ beta best bm _; exact ⟨fun _ => le_refl best, fun _ => le_refl best⟩
  | cons mv rest ih =>
    intro hg beta best bm hab
    obtain ⟨hup, hlo⟩ := hg mv (List.mem_cons_self mv rest) beta hab
    have hgrest := fun m hm => hg m (List.mem_cons_of_mem mv hm)
    rw [minLoop_cons, foldMin_cons]
    have hF := foldMin_le_acc gf rest best
    have hmr := min_le_right (gf mv) (foldMin gf rest best)
    have hml := min_le_left (gf mv) (foldMin gf rest best)
    by_cases h1 : min beta (g mv alpha beta) ≤ alpha
    · rw [if_pos h1]
      have hva : g mv alpha beta ≤ alpha := by
        rcases min_choice beta (g mv alpha beta) with h | h <;> omega
      constructor
      · intro hlt
        simp only [] at hlt ⊢
        have hgf : gf mv ≤ g mv alpha beta := hup (by omega)
        rcases min_choice best (g mv alpha beta) with h | h <;> rw [h] <;> omega
      · intro hgt
        simp only [] at hgt
        have := min_le_right best (g mv alpha beta)
        omega
    · rw [if_neg h1]
      have h1' : alpha < min beta (g mv alpha beta) := lt_of_not_le h1
      obtain ⟨ih1, ih2⟩ := ih hgrest (min beta (g mv alpha beta))
        (min best (g mv alpha beta))
        (if g mv alpha beta < best then some mv else bm) h1'
      rw [foldMin_acc_comm] at ih1 ih2
      have hL := minLoop_fst_le g rest alpha (min beta (g mv alpha beta))
        (min best (g mv alpha beta)) (if g mv alpha beta < best then some mv else bm)
      have hvab : alpha < g mv alpha beta := by
        have := min_le_right beta (g mv alpha beta); omega
      have hbb : min best (g mv alpha beta) ≤ g mv alpha beta := min_le_right _ _
      constructor
      · intro hlt
        by_cases h5 : (minLoop g rest alpha (min beta (g mv alpha beta))
            (min best (g mv alpha beta)) (if g mv alpha beta < best then some mv else bm)).1
            < min beta (g mv alpha beta)
        · have h3 := ih1 h5
          rcases min_choice (g mv alpha beta) (foldMin gf rest best) with h | h
          · rw [h] at h3
            have hgf : gf mv ≤ g mv alpha beta := hup (by omega)
            omega
          · rw [h] at h3; omega
        · have h6 : min beta (g mv alpha beta) ≤ (minLoop g rest alpha
              (min beta (g mv alpha beta)) (min best (g mv alpha beta))
              (if g mv alpha beta < best then some mv else bm)).1 := le_of_not_lt h5
          rcases min_choice beta (g mv alpha beta) with h | h
          · rw [h] at h6; omega
          · rw [h] at h6
            have hgf : gf mv ≤ g mv alpha beta := hup (by omega)
            omega
      · intro hgt
        have h3 := ih2 hgt
        have hgf : g mv alpha beta ≤ gf mv := hlo hvab
        rcases min_choice (g mv alpha beta) (foldMin gf rest best) with h | h <;>
          rw [h] at h3 <;> omega

theorem sentinel_pos : (0 : Int) < 10 ^ 9 := by norm_num

/-- The fail-soft property of the whole search relative to unpruned full
minimax over the same tree, for any window with `alpha < beta`. -/
theorem minimax_failsoft (R : Rules Pos Move) :
    ∀ (d : Nat) (p : Pos) (alpha beta : Int) (mz : Bool), alpha < beta →
      ((minimax R d p alpha beta mz).1 < beta →
        fullMinimax R d p mz ≤ (minimax R d p alpha beta mz).1) ∧
      (alpha < (minimax R d p alpha beta mz).1 →
        (minimax R d p alpha beta mz).1 ≤ fullMinimax R d p mz) := by
  intro d
  induction d with
  | zero =>
    intro p alpha beta mz _
    exact ⟨fun _ => le_refl _, fun _ => le_refl _⟩
  | succ e ih =>
    intro p alpha beta mz hab
    by_cases hover : R.isGameOver p = true
    · simp only [minimax, fullMinimax, hover, if_true]
      exact ⟨fun _ => le_refl _, fun _ => le_refl _⟩
    · have hov : R.isGameOver p = false := by simpa using hover
      cases mz with
      | true =>
        simp only [minimax, fullMinimax, hov, Bool.false_eq_true, if_false, if_true]
        exact maxLoop_failsoft _ _ beta (R.legalMoves p)
          (fun m _ a ha => ih (R.push p m) a beta false ha) alpha (-(10 ^ 9)) none hab
      | false =>
        simp only [minimax, fullMinimax, hov, Bool.false_eq_true, if_false, if_true]
        exact minLoop_failsoft _ _ alpha (R.legalMoves p)
          (fun m _ b hb => ih (R.push p m) alpha b true hb) beta (10 ^ 9) none hab

/-- Under an evaluator bounded by the sentinels, every search value stays
within the sentinels. -/
theorem minimax_bounds_sentinel (R : Rules Pos Move)
    (Hb : ∀ q, -(10 ^ 9) ≤ evaluate R q ∧ evaluate R q ≤ 10 ^ 9) :
    ∀ (d : Nat) (p : Pos) (alpha beta : Int) (mz : Bool),
      -(10 ^ 9) ≤ (minimax R d p alpha beta mz).1 ∧ (minimax R d p alpha beta mz).1 ≤ 10 ^ 9 := by
  intro d
  induction d with
  | zero => intro p alpha beta mz; exact Hb p
  | succ e ih =>
    intro p alpha beta mz
    by_cases hover : R.isGameOver p = true
    · simp only [minimax, hover, if_true]; exact Hb p
    · have hov : R.isGameOver p = false := by simpa using hover
      cases mz with
      | true =>
        simp only [minimax, hov, Bool.false_eq_true, if_false, if_true]
        constructor
        · exact maxLoop_fst_ge _ _ _ _ _ _
        · exact maxLoop_fst_le _ _ _ _ _ _ _
            (fun m _ a b => (ih (R.push p m) a b false).2) (by have := sentinel_pos; omega)
      | false =>
        simp only [minimax, hov, Bool.false_eq_true, if_false, if_true]
        constructor
        · exact minLoop_fst_ge _ _ _ _ _ _ _
            (fun m _ a b => (ih (R.push p m) a b true).1) (by have := sentinel_pos; omega)
        · exact minLoop_fst_le _ _ _ _ _ _

/-- Under an evaluator bounded by the sentinels, every unpruned minimax value
stays within the sentinels. -/
theorem fullMinimax_bounds_sentinel (R : Rules Pos Move)
    (Hb : ∀ q, -(10 ^ 9) ≤ evaluate R q ∧ evaluate R q ≤ 10 ^ 9) :
    ∀ (d : Nat) (p : Pos) (mz : Bool),
      -(10 ^ 9) ≤ fullMinimax R d p mz ∧ fullMinimax R d p mz ≤ 10 ^ 9 := by
  intro d
  induction d with
  | zero => intro p mz; exact Hb p
  | succ e ih =>
    intro p mz
    by_cases hover : R.isGameOver p = true
    · simp only [fullMinimax, hover, if_true]; exact Hb p
    · have hov : R.isGameOver p = false := by simpa using hover
      cases mz with
      | true =>
        simp only [fullMinimax, hov, Bool.false_eq_true, if_false, if_true]
        constructor
        · exact foldMax_acc_le _ _ _
        · exact foldMax_le _ _ _ _ (fun m _ => (ih (R.push p m) false).2)
            (by have := sentinel_pos; omega)
      | false =>
        simp only [fullMinimax, hov, Bool.false_eq_true, if_false, if_true]
        constructor
        · exact foldMin_ge _ _ _ _ (fun m _ => (ih (R.push p m) true).1)
            (by have := sentinel_pos; omega)
        · exact foldMin_le_acc _ _ _

/-- C1.  For every position, every depth ≥ 0, and every side to move, the
score returned by the alpha-beta search with the full initial window
`(-10^9, 10^9)` equals the score of the unpruned full minimax over the same
game tree to the same depth: pruning never changes the returned value.  The
hypothesis `Hb` records that the evaluator never reaches the sentinel bounds,
which holds for the chess evaluator (its magnitude is at most 999999 plus a
bounded material and mobility sum, far below `10^9`). -/
theorem minimax_fullwindow_eq_fullMinimax (R : Rules Pos Move)
    (Hb : ∀ q, -(10 ^ 9) ≤ evaluate R q ∧ evaluate R q ≤ 10 ^ 9)
    (d : Nat) (p : Pos) (mz : Bool) :
    (minimax R d p (-(10 ^ 9)) (10 ^ 9) mz).1 = fullMinimax R d p mz := by
  have hab : (-(10 ^ 9) : Int) < 10 ^ 9 := by have := sentinel_pos; omega
  obtain ⟨h1, h2⟩ := minimax_failsoft R d p (-(10 ^ 9)) (10 ^ 9) mz hab
  obtain ⟨hb1, hb2⟩ := minimax_bounds_sentinel R Hb d p (-(10 ^ 9)) (10 ^ 9) mz
  obtain ⟨hf1, hf2⟩ := fullMinimax_bounds_sentinel R Hb d p mz
  rcases lt_or_le (minimax R d p (-(10 ^ 9)) (10 ^ 9) mz).1 (10 ^ 9) with h | h
  · have hu := h1 h
    rcases lt_or_le (-(10 ^ 9) : Int) (minimax R d p (-(10 ^ 9)) (10 ^ 9) mz).1 with h' | h'
    · exact le_antisymm (h2 h') hu
    · omega
  · have := h2 (by omega)
    omega

/-- Witness for C1 at the concrete instance, depth 3. -/
theorem minimax_fullwindow_eq_fullMinimax_witness :
    (minimax Rc 3 0 (-(10 ^ 9)) (10 ^ 9) true).1 = fullMinimax Rc 3 0 true :=
  minimax_fullwindow_eq_fullMinimax Rc (by decide) 3 0 true

/-!  The state-threading search is pure: it computes the same result as the
pure translation and returns the shared board exactly as it received it, every
push being undone by the matching pop on every path, including the early
pruning exits. -/

theorem maxLoopS_spec (R : Rules Pos Move)
    (gS : Int → Int → Pos × List Pos → (Int × Option Move) × (Pos × List Pos))
    (F : Pos → Int → Int → Int × Option Move)
    (hg : ∀ a b q hist, gS a b (q, hist) = (F q a b, (q, hist))) (p : Pos) (hist : List Pos) :
    ∀ (moves : List Move) (alpha beta best : Int) (bm : Option Move),
      maxLoopS R gS moves (p, hist) alpha beta best bm =
        (maxLoop (fun mv a b => (F (R.push p mv) a b).1) moves alpha beta best bm, (p, hist)) := by
  intro moves
  induction moves with
  | nil => intro alpha beta best bm; rfl
  | cons mv rest ih =>
    intro alpha beta best bm
    simp only [maxLoopS, maxLoop, pushS, hg, popS]
    by_cases h1 : beta ≤ max alpha ((F (R.push p mv) alpha beta).1)
    · simp only [if_pos h1]
    · simp only [if_neg h1]
      exact ih _ _ _ _

theorem minLoopS_spec (R : Rules Pos Move)
    (gS : Int → Int → Pos × List Pos → (Int × Option Move) × (Pos × List Pos))
    (F : Pos → Int → Int → Int × Option Move)
    (hg : ∀ a b q hist, gS a b (q, hist) = (F q a b, (q, hist))) (p : Pos) (hist : List Pos) :
    ∀ (moves : List Move) (alpha beta best : Int) (bm : Option Move),
      minLoopS R gS moves (p, hist) alpha beta best bm =
        (minLoop (fun mv a b => (F (R.push p mv) a b).1) moves alpha beta best bm, (p, hist)) := by
  intro moves
  induction moves with
  | nil => intro alpha beta best bm; rfl
  | cons mv rest ih =>
    intro alpha beta best bm
    simp only [minLoopS, minLoop, pushS, hg, popS]
    by_cases h1 : min beta ((F (R.push p mv) alpha beta).1) ≤ alpha
    · simp only [if_pos h1]
    · simp only [if_neg h1]
      exact ih _ _ _ _

theorem minimaxS_spec (R : Rules Pos Move) :
    ∀ (d : Nat) (s : Pos × List Pos) (alpha beta : Int) (mz : Bool),
      minimaxS R d s alpha beta mz = (minimax R d s.1 alpha beta mz, s) := by
  intro d
  induction d with
  | zero => intro s alpha beta mz; rfl
  | succ e ih =>
    intro s alpha beta mz
    obtain ⟨p, hist⟩ := s
    by_cases hover : R.isGameOver p = true
    · simp only [minimaxS, minimax, hover, if_true]
    · have hov : R.isGameOver p = false := by simpa using hover
      cases mz with
      | true =>
        simp only [minimaxS, minimax, hov, Bool.false_eq_true, if_false, if_true]
        exact maxLoopS_spec R _ (fun q a b => minimax R e q a b false)
          (fun a b q h => ih (q, h) a b false) p hist (R.legalMoves p) _ _ _ _
      | false =>
        simp only [minimaxS, minimax, hov, Bool.false_eq_true, if_false, if_true]
        exact minLoopS_spec R _ (fun q a b => minimax R e q a b true)
          (fun a b q h => ih (q, h) a b true) p hist (R.legalMoves p) _ _ _ _

/-- C2.  For every position, every depth ≥ 0, every window and either value of
`maximizing`, the shared board after `minimax` returns is identical to the
board before the call — the current position and the whole undo stack are
unchanged — including on paths where the `beta ≤ alpha` break exits the move
loop early: every push is paired with a pop before return.  (Stated for all
`alpha`, `beta`, so in particular for every `alpha < beta`.) -/
theorem minimaxS_preserves_position (R : Rules Pos Move) (d : Nat) (s : Pos × List Pos)
    (alpha beta : Int) (mz : Bool) :
    (minimaxS R d s alpha beta mz).2 = s := by
  rw [minimaxS_spec]

/-- C4.  For every board (terminal or not) and every `alpha`, `beta`,
`maximizing`, the search at depth 0 returns exactly the pair
`(evaluate(position), none)`: the evaluator's score of the unmodified input
position, no move, and the board untouched. -/
theorem minimaxS_depth_zero (R : Rules Pos Move) (s : Pos × List Pos)
    (alpha beta : Int) (mz : Bool) :
    minimaxS R 0 s alpha beta mz = ((evaluate R s.1, none), s) := rfl

/-- C3.  For every position the evaluator returns: `-999999` at a checkmate
with White (the maximizing side) to move and `+999999` at a checkmate with
Black to move; `0` at a stalemate or a draw by insufficient material;
otherwise the sum over piece types of `value(type) * (White count - Black
count)` with the table pawn 100, knight 320, bishop 330, rook 500, queen 900,
king 20000, plus a mobility term of `+5` times the side-to-move's legal move
count when White is to move and `-5` times it when Black is to move. -/
theorem evaluate_cases (R : Rules Pos Move) (b : Pos) :
    (R.isCheckmate b = true → evaluate R b = if R.turn b then -999999 else 999999) ∧
    (R.isCheckmate b = false →
      (R.isStalemate b = true ∨ R.isInsufficientMaterial b = true) → evaluate R b = 0) ∧
    (R.isCheckmate b = false → R.isStalemate b = false → R.isInsufficientMaterial b = false →
      evaluate R b =
        100 * ((R.pieces b true PieceType.pawn : Int) - (R.pieces b false PieceType.pawn : Int))
        + 320 * ((R.pieces b true PieceType.knight : Int) -
            (R.pieces b false PieceType.knight : Int))
        + 330 * ((R.pieces b true PieceType.bishop : Int) -
            (R.pieces b false PieceType.bishop : Int))
        + 500 * ((R.pieces b true PieceType.rook : Int) - (R.pieces b false PieceType.rook : Int))
        + 900 * ((R.pieces b true PieceType.queen : Int) -
            (R.pieces b false PieceType.queen : Int))
        + 20000 * ((R.pieces b true PieceType.king : Int) -
            (R.pieces b false PieceType.king : Int))
        + (if R.turn b then 5 * ((R.legalMoves b).length : Int)
           else -(5 * ((R.legalMoves b).length : Int)))) := by
  refine ⟨fun h1 => ?_, fun h1 h2 => ?_, fun h1 h2 h3 => ?_⟩
  · simp [evaluate, h1]
  · rcases h2 with h2 | h2 <;> simp [evaluate, h1, h2]
  · simp only [evaluate, h1, h2, h3, Bool.false_eq_true, if_false, Bool.or_self,
      PIECE_VALUES, List.foldl]
    split_ifs <;> ring

/-- Witness for C3 at the concrete instance: the checkmate branch at
position 3. -/
theorem evaluate_cases_witness :
    Rc.isCheckmate 3 = true ∧ evaluate Rc 3 = (if Rc.turn 3 then -999999 else 999999) :=
  ⟨by decide, (evaluate_cases Rc 3).1 (by decide)⟩

/-!  First-achiever characterization of the loops: the returned move is the
move paired with the first computed child value that equals the final best
value, and the best move is left untouched when no value strictly improves the
initial best. -/

theorem foldlMax_init_le (l : List Int) : ∀ b : Int, b ≤ l.foldl max b := by
  induction l with
  | nil => intro b; exact le_refl b
  | cons x xs ih =>
    intro b
    exact le_trans (le_max_left b x) (ih (max b x))

theorem foldlMin_le_init (l : List Int) : ∀ b : Int, l.foldl min b ≤ b := by
  induction l with
  | nil => intro b; exact le_refl b
  | cons x xs ih =>
    intro b
    exact le_trans (ih (min b x)) (min_le_left b x)

theorem maxLoop_firstAt (g : Move → Int → Int → Int) (beta : Int) :
    ∀ (moves : List Move) (alpha best : Int) (bm : Option Move),
      maxLoop g moves alpha beta best bm =
        ((maxLoopVals g moves alpha beta).foldl max best,
         if best < (maxLoopVals g moves alpha beta).foldl max best
         then firstAt moves (maxLoopVals g moves alpha beta)
           ((maxLoopVals g moves alpha beta).foldl max best)
         else bm) := by
  intro moves
  induction moves with
  | nil =>
    intro alpha best bm
    simp [maxLoop, maxLoopVals, lt_irrefl]
  | cons mv rest ih =>
    intro alpha best bm
    rw [maxLoop_cons]
    simp only [maxLoopVals]
    by_cases h1 : beta ≤ max alpha (g mv alpha beta)
    · rw [if_pos h1, if_pos h1]
      simp only [List.foldl, firstAt, Prod.mk.injEq]
      constructor
      · trivial
      · by_cases h2 : best < g mv alpha beta
        · rw [if_pos h2, max_eq_right (le_of_lt h2)]
          rw [if_pos h2, if_pos rfl]
        · rw [if_neg h2, max_eq_left (le_of_not_lt h2)]
          rw [if_neg (lt_irrefl best)]
    · rw [if_neg h1, if_neg h1]
      rw [ih (max alpha (g mv alpha beta)) (max best (g mv alpha beta))
        (if best < g mv alpha beta then some mv else bm)]
      simp only [List.foldl, Prod.mk.injEq]
      have hVb := foldlMax_init_le (maxLoopVals g rest (max alpha (g mv alpha beta)) beta)
        (max best (g mv alpha beta))
      constructor
      · trivial
      · simp only [firstAt]
        by_cases h2 : best < g mv alpha beta
        · rw [max_eq_right (le_of_lt h2)] at hVb ⊢
          rw [if_pos h2]
          by_cases h3 : g mv alpha beta =
              (maxLoopVals g rest (max alpha (g mv alpha beta)) beta).foldl max (g mv alpha beta)
          · rw [if_pos h3, if_neg (by omega), if_pos (by omega)]
          · have hlt : g mv alpha beta <
                (maxLoopVals g rest (max alpha (g mv alpha beta)) beta).foldl max
                  (g mv alpha beta) := by omega
            rw [if_neg h3, if_pos hlt, if_pos (by omega)]
        · rw [max_eq_left (le_of_not_lt h2)] at hVb ⊢
          rw [if_neg h2]
          by_cases h4 : best <
              (maxLoopVals g rest (max alpha (g mv alpha beta)) beta).foldl max best
          · rw [if_pos h4, if_pos h4, if_neg (by omega)]
          · rw [if_neg h4, if_neg h4]

theorem minLoop_firstAt (g : Move → Int → Int → Int) (alpha : Int) :
    ∀ (moves : List Move) (beta best : Int) (bm : Option Move),
      minLoop g moves alpha beta best bm =
        ((minLoopVals g moves alpha beta).foldl min best,
         if (minLoopVals g moves alpha beta).foldl min best < best
         then firstAt moves (minLoopVals g moves alpha beta)
           ((minLoopVals g moves alpha beta).foldl min best)
         else bm) := by
  intro moves
  induction moves with
  | nil =>
    intro beta best bm
    simp [minLoop, minLoopVals, lt_irrefl]
  | cons mv rest ih =>
    intro beta best bm
    rw [minLoop_cons]
    simp only [minLoopVals]
    by_cases h1 : min beta (g mv alpha beta) ≤ alpha
    · rw [if_pos h1, if_pos h1]
      simp only [List.foldl, firstAt, Prod.mk.injEq]
      constructor
      · trivial
      · by_cases h2 : g mv alpha beta < best
        · rw [if_pos h2, min_eq_right (le_of_lt h2)]
          rw [if_pos h2, if_pos rfl]
        · rw [if_neg h2, min_eq_left (le_of_not_lt h2)]
          rw [if_neg (lt_irrefl best)]
    · rw [if_neg h1, if_neg h1]
      rw [ih (min beta (g mv alpha beta)) (min best (g mv alpha beta))
        (if g mv alpha beta < best then some mv else bm)]
      simp only [List.foldl, Prod.mk.injEq]
      have hVb := foldlMin_le_init (minLoopVals g rest alpha (min beta (g mv alpha beta)))
        (min best (g mv alpha beta))
      constructor
      · trivial
      · simp only [firstAt]
        by_cases h2 : g mv alpha beta < best
        · rw [min_eq_right (le_of_lt h2)] at hVb ⊢
          rw [if_pos h2]
          by_cases h3 : g mv alpha beta =
              (minLoopVals g rest alpha (min beta (g mv alpha beta))).foldl min (g mv alpha beta)
          · rw [if_pos h3, if_neg (by omega), if_pos (by omega)]
          · have hlt : (minLoopVals g rest alpha (min beta (g mv alpha beta))).foldl min
                (g mv alpha beta) < g mv alpha beta := by omega
            rw [if_neg h3, if_pos hlt, if_pos (by omega)]
        · rw [min_eq_left (le_of_not_lt h2)] at hVb ⊢
          rw [if_neg h2]
          by_cases h4 : (minLoopVals g rest alpha (min beta (g mv alpha beta))).foldl min best
              < best
          · rw [if_pos h4, if_pos h4, if_neg (by omega)]
          · rw [if_neg h4, if_neg h4]

/-- C6.  For every non-terminal position and depth ≥ 1, in both the
maximizing and the minimizing case, the search returns the fold of its
computed child values (`maxLoopVals` / `minLoopVals`: the values the loop
actually computes, with the window evolving and the list truncated at the
prune), and the returned move is the move paired with the FIRST of those
values achieving the final best value: the running best move is replaced only
on strict improvement, so a later move with an equal value never replaces an
earlier one.  The move is `none` exactly when no value strictly improves the
sentinel initial best. -/
theorem minimax_tiebreak_first (R : Rules Pos Move) (d : Nat) (p : Pos) (alpha beta : Int)
    (h : R.isGameOver p = false) :
    (let g := fun mv a b => (minimax R d (R.push p mv) a b false).1
     let vals := maxLoopVals g (R.legalMoves p) alpha beta
     let v := vals.foldl max (-(10 ^ 9))
     minimax R (d + 1) p alpha beta true =
       (v, if -(10 ^ 9) < v then firstAt (R.legalMoves p) vals v else none)) ∧
    (let g := fun mv a b => (minimax R d (R.push p mv) a b true).1
     let vals := minLoopVals g (R.legalMoves p) alpha beta
     let v := vals.foldl min (10 ^ 9)
     minimax R (d + 1) p alpha beta false =
       (v, if v < 10 ^ 9 then firstAt (R.legalMoves p) vals v else none)) := by
  constructor
  · simp only [minimax, h, Bool.false_eq_true, if_false, if_true]
    exact maxLoop_firstAt _ beta (R.legalMoves p) alpha (-(10 ^ 9)) none
  · simp only [minimax, h, Bool.false_eq_true, if_false, if_true]
    exact minLoop_firstAt _ alpha (R.legalMoves p) beta (10 ^ 9) none

/-- Witness for C6 at the concrete instance, depth 1, full window. -/
theorem minimax_tiebreak_first_witness :
    Rc.isGameOver 0 = false ∧
      ((let g := fun mv a b => (minimax Rc 0 (Rc.push 0 mv) a b false).1
        let vals := maxLoopVals g (Rc.legalMoves 0) (-(10 ^ 9)) (10 ^ 9)
        let v := vals.foldl max (-(10 ^ 9))
        minimax Rc 1 0 (-(10 ^ 9)) (10 ^ 9) true =
          (v, if -(10 ^ 9) < v then firstAt (Rc.legalMoves 0) vals v else none)) ∧
       (let g := fun mv a b => (minimax Rc 0 (Rc.push 0 mv) a b true).1
        let vals := minLoopVals g (Rc.legalMoves 0) (-(10 ^ 9)) (10 ^ 9)
        let v := vals.foldl min (10 ^ 9)
        minimax Rc 1 0 (-(10 ^ 9)) (10 ^ 9) false =
          (v, if v < 10 ^ 9 then firstAt (Rc.legalMoves 0) vals v else none))) :=
  ⟨by decide, minimax_tiebreak_first Rc 0 0 (-(10 ^ 9)) (10 ^ 9) (by decide)⟩

theorem minimax_gameOver (R : Rules Pos Move) (p : Pos) (h : R.isGameOver p = true) :
    ∀ (d : Nat) (alpha beta : Int) (mz : Bool),
      minimax R d p alpha beta mz = (evaluate R p, none) := by
  intro d alpha beta mz
  cases d with
  | zero => rfl
  | succ e => simp only [minimax, h, if_true]

theorem evaluate_bounds (R : Rules Pos Move)
    (He : ∀ q, R.isCheckmate q = false → -999999 < evaluate R q ∧ evaluate R q < 999999) :
    ∀ q, -999999 ≤ evaluate R q ∧ evaluate R q ≤ 999999 := by
  intro q
  by_cases h : R.isCheckmate q = true
  · have hq : evaluate R q = if R.turn q then -999999 else 999999 := by simp [evaluate, h]
    rw [hq]; split <;> omega
  · have h' : R.isCheckmate q = false := by simpa using h
    have := He q h'
    omega

theorem minimax_bounds_999999 (R : Rules Pos Move)
    (He : ∀ q, -999999 ≤ evaluate R q ∧ evaluate R q ≤ 999999)
    (Hs : ∀ q, R.isGameOver q = false → R.legalMoves q ≠ []) :
    ∀ (d : Nat) (p : Pos) (alpha beta : Int) (mz : Bool),
      -999999 ≤ (minimax R d p alpha beta mz).1 ∧ (minimax R d p alpha beta mz).1 ≤ 999999 := by
  intro d
  induction d with
  | zero => intro p alpha beta mz; exact He p
  | succ e ih =>
    intro p alpha beta mz
    by_cases hover : R.isGameOver p = true
    · simp only [minimax, hover, if_true]; exact He p
    · have hov : R.isGameOver p = false := by simpa using hover
      obtain ⟨mv, rest, hmoves⟩ := List.exists_cons_of_ne_nil (Hs p hov)
      cases mz with
      | true =>
        simp only [minimax, hov, Bool.false_eq_true, if_false, if_true, hmoves]
        constructor
        · have h1 := maxLoop_cons_fst_ge
            (fun mv a b => (minimax R e (R.push p mv) a b false).1) mv rest alpha beta
            (-(10 ^ 9)) none
          have h2 := (ih (R.push p mv) alpha beta false).1
          simp only [] at h1
          omega
        · exact maxLoop_fst_le _ _ _ _ _ _ _
            (fun m _ a b => (ih (R.push p m) a b false).2) (by have := sentinel_pos; omega)
      | false =>
        simp only [minimax, hov, Bool.false_eq_true, if_false, if_true, hmoves]
        constructor
        · exact minLoop_fst_ge _ _ _ _ _ _ _
            (fun m _ a b => (ih (R.push p m) a b true).1) (by have := sentinel_pos; omega)
        · have h1 := minLoop_cons_fst_le
            (fun mv a b => (minimax R e (R.push p mv) a b true).1) mv rest alpha beta
            (10 ^ 9) none
          have h2 := (ih (R.push p mv) alpha beta true).2
          simp only [] at h1
          omega

theorem maxLoop_snd_some (g : Move → Int → Int → Int) :
    ∀ (moves : List Move) (alpha beta best : Int) (m0 : Move),
      ∃ m', (maxLoop g moves alpha beta best (some m0)).2 = some m' := by
  intro moves
  induction moves with
  | nil => intro alpha beta best m0; exact ⟨m0, rfl⟩
  | cons mv rest ih =>
    intro alpha beta best m0
    rw [maxLoop_cons]
    by_cases h1 : beta ≤ max alpha (g mv alpha beta)
    · rw [if_pos h1]
      by_cases h2 : best < g mv alpha beta
      · exact ⟨mv, by simp [h2]⟩
      · exact ⟨m0, by simp [h2]⟩
    · rw [if_neg h1]
      by_cases h2 : best < g mv alpha beta
      · simp only [if_pos h2]
        exact ih _ _ _ mv
      · simp only [if_neg h2]
        exact ih _ _ _ m0

theorem minLoop_snd_some (g : Move → Int → Int → Int) :
    ∀ (moves : List Move) (alpha beta best : Int) (m0 : Move),
      ∃ m', (minLoop g moves alpha beta best (some m0)).2 = some m' := by
  intro moves
  induction moves with
  | nil => intro alpha beta best m0; exact ⟨m0, rfl⟩
  | cons mv rest ih =>
    intro alpha beta best m0
    rw [minLoop_cons]
    by_cases h1 : min beta (g mv alpha beta) ≤ alpha
    · rw [if_pos h1]
      by_cases h2 : g mv alpha beta < best
      · exact ⟨mv, by simp [h2]⟩
      · exact ⟨m0, by simp [h2]⟩
    · rw [if_neg h1]
      by_cases h2 : g mv alpha beta < best
      · simp only [if_pos h2]
        exact ih _ _ _ mv
      · simp only [if_neg h2]
        exact ih _ _ _ m0

/-- C7.  The returned move is `none` only when the input position is terminal
or the depth is 0: at depth 0 or at a game-over position the move is `none`,
and for every non-terminal position, every depth ≥ 1, and every initial window
`alpha < beta`, the search returns some move — the first legal move's value
lies strictly inside the sentinel bounds (given the chess-valid hypotheses
that non-checkmate evaluations are strictly below the mate constant and that
non-terminal positions have at least one legal move), so it strictly improves
the initial `-10^9` / `10^9` bound even when pruning stops the loop right
after the first move. -/
theorem minimax_none_iff_base (R : Rules Pos Move)
    (He : ∀ q, R.isCheckmate q = false → -999999 < evaluate R q ∧ evaluate R q < 999999)
    (Hs : ∀ q, R.isGameOver q = false → R.legalMoves q ≠ [])
    (d : Nat) (p : Pos) (alpha beta : Int) (mz : Bool) :
    ((d = 0 ∨ R.isGameOver p = true) → (minimax R d p alpha beta mz).2 = none) ∧
    (1 ≤ d → R.isGameOver p = false → alpha < beta →
      ∃ m, (minimax R d p alpha beta mz).2 = some m) := by
  have Heb := evaluate_bounds R He
  constructor
  · intro h
    rcases h with h | h
    · subst h; rfl
    · rw [minimax_gameOver R p h]
  · intro hd hov hab
    cases d with
    | zero => omega
    | succ e =>
      obtain ⟨mv, rest, hmoves⟩ := List.exists_cons_of_ne_nil (Hs p hov)
      have hb := minimax_bounds_999999 R Heb Hs e (R.push p mv) alpha beta
      cases mz with
      | true =>
        simp only [minimax, hov, Bool.false_eq_true, if_false, if_true, hmoves]
        rw [maxLoop_cons]
        have h2 : -(10 ^ 9) < (minimax R e (R.push p mv) alpha beta false).1 := by
          have := (hb false).1; have := sentinel_pos; omega
        by_cases h1 : beta ≤ max alpha ((minimax R e (R.push p mv) alpha beta false).1)
        · rw [if_pos h1]
          exact ⟨mv, by rw [if_pos h2]⟩
        · rw [if_neg h1]
          simp only [if_pos h2]
          exact maxLoop_snd_some _ _ _ _ _ mv
      | false =>
        simp only [minimax, hov, Bool.false_eq_true, if_false, if_true, hmoves]
        rw [minLoop_cons]
        have h2 : (minimax R e (R.push p mv) alpha beta true).1 < 10 ^ 9 := by
          have := (hb true).2; have := sentinel_pos; omega
        by_cases h1 : min beta ((minimax R e (R.push p mv) alpha beta true).1) ≤ alpha
        · rw [if_pos h1]
          exact ⟨mv, by rw [if_pos h2]⟩
        · rw [if_neg h1]
          simp only [if_pos h2]
          exact minLoop_snd_some _ _ _ _ _ mv

theorem maxLoop_fst_mem (g : Move → Int → Int → Int) :
    ∀ (moves : List Move) (alpha beta best : Int) (bm : Option Move),
      (maxLoop g moves alpha beta best bm).1 = best ∨
        ∃ mv ∈ moves, ∃ a, (maxLoop g moves alpha beta best bm).1 = g mv a beta := by
  intro moves
  induction moves with
  | nil => intro alpha beta best bm; exact Or.inl rfl
  | cons mv rest ih =>
    intro alpha beta best bm
    rw [maxLoop_cons]
    by_cases h1 : beta ≤ max alpha (g mv alpha beta)
    · rw [if_pos h1]
      rcases max_choice best (g mv alpha beta) with h | h
      · exact Or.inl (by simp [h])
      · exact Or.inr ⟨mv, List.mem_cons_self mv rest, alpha, by simp [h]⟩
    · rw [if_neg h1]
      rcases ih (max alpha (g mv alpha beta)) beta (max best (g mv alpha beta))
          (if best < g mv alpha beta then some mv else bm) with h | ⟨mv', hmem, a, hv⟩
      · rcases max_choice best (g mv alpha beta) with h' | h'
        · exact Or.inl (by rw [h, h'])
        · exact Or.inr ⟨mv, List.mem_cons_self mv rest, alpha, by rw [h, h']⟩
      · exact Or.inr ⟨mv', List.mem_cons_of_mem mv hmem, a, hv⟩

theorem minLoop_fst_mem (g : Move → Int → Int → Int) :
    ∀ (moves : List Move) (alpha beta best : Int) (bm : Option Move),
      (minLoop g moves alpha beta best bm).1 = best ∨
        ∃ mv ∈ moves, ∃ b, (minLoop g moves alpha beta best bm).1 = g mv alpha b := by
  intro moves
  induction moves with
  | nil => intro alpha beta best bm; exact Or.inl rfl
  | cons mv rest ih =>
    intro alpha beta best bm
    rw [minLoop_cons]
    by_cases h1 : min beta (g mv alpha beta) ≤ alpha
    · rw [if_pos h1]
      rcases min_choice best (g mv alpha beta) with h | h
      · exact Or.inl (by simp [h])
      · exact Or.inr ⟨mv, List.mem_cons_self mv rest, beta, by simp [h]⟩
    · rw [if_neg h1]
      rcases ih alpha (min beta (g mv alpha beta)) (min best (g mv alpha beta))
          (if g mv alpha beta < best then some mv else bm) with h | ⟨mv', hmem, b, hv⟩
      · rcases min_choice best (g mv alpha beta) with h' | h'
        · exact Or.inl (by rw [h, h'])
        · exact Or.inr ⟨mv, List.mem_cons_self mv rest, beta, by rw [h, h']⟩
      · exact Or.inr ⟨mv', List.mem_cons_of_mem mv hmem, b, hv⟩

/-- C10.  For every position, every depth, every window and either side, the
score returned by `minimax` equals `evaluate(p')` for some position `p'`
reachable from the input position by pushing at most `depth` legal moves; in
particular the returned score lies in `[-999999, 999999]`, well inside the
sentinel bounds `±10^9`, so the sentinels are never returned. -/
theorem minimax_fst_reachable (R : Rules Pos Move)
    (He : ∀ q, R.isCheckmate q = false → -999999 < evaluate R q ∧ evaluate R q < 999999)
    (Hs : ∀ q, R.isGameOver q = false → R.legalMoves q ≠ []) :
    ∀ (d : Nat) (p : Pos) (alpha beta : Int) (mz : Bool),
      (∃ p', ReachN R d p p' ∧ (minimax R d p alpha beta mz).1 = evaluate R p') ∧
      -999999 ≤ (minimax R d p alpha beta mz).1 ∧ (minimax R d p alpha beta mz).1 ≤ 999999 := by
  have Heb := evaluate_bounds R He
  intro d
  induction d with
  | zero =>
    intro p alpha beta mz
    exact ⟨⟨p, rfl, rfl⟩, Heb p⟩
  | succ e ih =>
    intro p alpha beta mz
    refine ⟨?_, minimax_bounds_999999 R Heb Hs (e + 1) p alpha beta mz⟩
    by_cases hover : R.isGameOver p = true
    · refine ⟨p, Or.inl rfl, ?_⟩
      rw [minimax_gameOver R p hover]
    · have hov : R.isGameOver p = false := by simpa using hover
      have hb := minimax_bounds_999999 R Heb Hs (e + 1) p alpha beta mz
      cases mz with
      | true =>
        simp only [minimax, hov, Bool.false_eq_true, if_false, if_true] at hb ⊢
        rcases maxLoop_fst_mem (fun mv a b => (minimax R e (R.push p mv) a b false).1)
            (R.legalMoves p) alpha beta (-(10 ^ 9)) none with h | ⟨mv, hmem, a, hv⟩
        · exfalso
          rw [h] at hb
          have := sentinel_pos
          omega
        · obtain ⟨⟨p', hreach, heq⟩, _⟩ := ih (R.push p mv) a beta false
          refine ⟨p', Or.inr ⟨mv, hmem, hreach⟩, ?_⟩
          rw [hv]
          exact heq
      | false =>
        simp only [minimax, hov, Bool.false_eq_true, if_false, if_true] at hb ⊢
        rcases minLoop_fst_mem (fun mv a b => (minimax R e (R.push p mv) a b true).1)
            (R.legalMoves p) alpha beta (10 ^ 9) none with h | ⟨mv, hmem, b, hv⟩
        · exfalso
          rw [h] at hb
          have := sentinel_pos
          omega
        · obtain ⟨⟨p', hreach, heq⟩, _⟩ := ih (R.push p mv) alpha b true
          refine ⟨p', Or.inr ⟨mv, hmem, hreach⟩, ?_⟩
          rw [hv]
          exact heq

/-- Witness for C7 at the concrete instance, depth 1. -/
theorem minimax_none_iff_base_witness :
    Rc.isGameOver 0 = false ∧ ∃ m, (minimax Rc 1 0 (-(10 ^ 9)) (10 ^ 9) true).2 = some m :=
  ⟨by decide, (minimax_none_iff_base Rc (by decide) (by decide) 1 0 (-(10 ^ 9)) (10 ^ 9)
    true).2 (by norm_num) (by decide) (by norm_num)⟩

/-- Witness for C10 at the concrete instance, depth 2. -/
theorem minimax_fst_reachable_witness :
    (∃ p', ReachN Rc 2 0 p' ∧ (minimax Rc 2 0 (-(10 ^ 9)) (10 ^ 9) true).1 = evaluate Rc p') ∧
    -999999 ≤ (minimax Rc 2 0 (-(10 ^ 9)) (10 ^ 9) true).1 ∧
      (minimax Rc 2 0 (-(10 ^ 9)) (10 ^ 9) true).1 ≤ 999999 :=
  minimax_fst_reachable Rc (by decide) (by decide) 2 0 (-(10 ^ 9)) (10 ^ 9) true

theorem evaluate_checkmate (R : Rules Pos Move) (q : Pos) (h : R.isCheckmate q = true) :
    evaluate R q = if R.turn q then -999999 else 999999 := by
  simp [evaluate, h]

theorem evaluate_lt_mate (R : Rules Pos Move)
    (He : ∀ q, R.isCheckmate q = false → -999999 < evaluate R q ∧ evaluate R q < 999999)
    (q : Pos) (h : R.turn q = true) : evaluate R q < 999999 := by
  by_cases hcm : R.isCheckmate q = true
  · rw [evaluate_checkmate R q hcm, if_pos h]
    omega
  · exact (He q (by simpa using hcm)).2

theorem maxLoop_fst_reaches (g : Move → Int → Int → Int) (beta c : Int) (m1 : Move)
    (hval : ∀ a, g m1 a beta = c) :
    ∀ (moves : List Move) (alpha best : Int) (bm : Option Move),
      m1 ∈ moves → (∀ mv ∈ moves, ∀ a, g mv a beta ≤ c) → c < beta → alpha < beta →
      c ≤ (maxLoop g moves alpha beta best bm).1 := by
  intro moves
  induction moves with
  | nil => intro alpha best bm hmem; exact absurd hmem (List.not_mem_nil m1)
  | cons mv rest ih =>
    intro alpha best bm hmem hle hcb hab
    have hv : g mv alpha beta ≤ c := hle mv (List.mem_cons_self mv rest) alpha
    have h1 : ¬ (beta ≤ max alpha (g mv alpha beta)) := by
      rcases max_choice alpha (g mv alpha beta) with h | h <;> omega
    rw [maxLoop_cons, if_neg h1]
    have hab' : max alpha (g mv alpha beta) < beta := by
      rcases max_choice alpha (g mv alpha beta) with h | h <;> omega
    rcases List.mem_cons.mp hmem with heq | hmem'
    · subst heq
      have hge := maxLoop_fst_ge g rest (max alpha (g m1 alpha beta)) beta
        (max best (g m1 alpha beta)) (if best < g m1 alpha beta then some m1 else bm)
      have h2 := le_max_right best (g m1 alpha beta)
      have h3 := hval alpha
      omega
    · exact ih (max alpha (g mv alpha beta)) (max best (g mv alpha beta))
        (if best < g mv alpha beta then some mv else bm) hmem'
        (fun m hm => hle m (List.mem_cons_of_mem mv hm)) hcb hab'

theorem maxLoop_snd_stable (g : Move → Int → Int → Int) :
    ∀ (moves : List Move) (alpha beta best : Int) (bm : Option Move),
      (∀ mv ∈ moves, ∀ a, g mv a beta ≤ best) →
      (maxLoop g moves alpha beta best bm).2 = bm := by
  intro moves
  induction moves with
  | nil => intro alpha beta best bm _; rfl
  | cons mv rest ih =>
    intro alpha beta best bm hle
    have hv : g mv alpha beta ≤ best := hle mv (List.mem_cons_self mv rest) alpha
    have h2 : ¬ best < g mv alpha beta := not_lt.mpr hv
    have hbest : max best (g mv alpha beta) = best := max_eq_left hv
    rw [maxLoop_cons]
    by_cases h1 : beta ≤ max alpha (g mv alpha beta)
    · rw [if_pos h1, if_neg h2]
    · rw [if_neg h1, if_neg h2, hbest]
      exact ih _ _ _ _ (fun m hm => hle m (List.mem_cons_of_mem mv hm))

theorem maxLoop_snd_Q (g : Move → Int → Int → Int) (Q : Move → Prop) (beta c : Int) :
    ∀ (moves : List Move) (alpha best : Int) (bm : Option Move),
      alpha < beta → c < beta → best < c →
      (∀ mv ∈ moves, (Q mv ∧ ∀ a, g mv a beta = c) ∨ (¬ Q mv ∧ ∀ a, g mv a beta < c)) →
      (∃ mv ∈ moves, Q mv) →
      ∃ m', (maxLoop g moves alpha beta best bm).2 = some m' ∧ Q m' := by
  intro moves
  induction moves with
  | nil => intro alpha best bm _ _ _ _ hw; exact absurd hw (by simp)
  | cons mv rest ih =>
    intro alpha best bm hab hcb hbc hQ hw
    rcases hQ mv (List.mem_cons_self mv rest) with ⟨hQmv, hval⟩ | ⟨hnQ, hval⟩
    · have hv : g mv alpha beta = c := hval alpha
      have h2 : best < g mv alpha beta := by omega
      have h1 : ¬ (beta ≤ max alpha (g mv alpha beta)) := by
        rcases max_choice alpha (g mv alpha beta) with h | h <;> omega
      rw [maxLoop_cons, if_neg h1, if_pos h2]
      refine ⟨mv, ?_, hQmv⟩
      refine maxLoop_snd_stable g rest _ _ _ _ ?_
      intro m hm a
      have h3 := le_max_right best (g mv alpha beta)
      rcases hQ m (List.mem_cons_of_mem mv hm) with ⟨_, hvm⟩ | ⟨_, hvm⟩
      · have := hvm a; omega
      · have := hvm a; omega
    · have hv : g mv alpha beta < c := hval alpha
      have h1 : ¬ (beta ≤ max alpha (g mv alpha beta)) := by
        rcases max_choice alpha (g mv alpha beta) with h | h <;> omega
      rw [maxLoop_cons, if_neg h1]
      have hab' : max alpha (g mv alpha beta) < beta := by
        rcases max_choice alpha (g mv alpha beta) with h | h <;> omega
      have hbc' : max best (g mv alpha beta) < c := by
        rcases max_choice best (g mv alpha beta) with h | h <;> omega
      obtain ⟨w, hwmem, hQw⟩ := hw
      have hw' : w ∈ rest := by
        rcases List.mem_cons.mp hwmem with heq | h
        · exact absurd (heq ▸ hQw) hnQ
        · exact h
      exact ih (max alpha (g mv alpha beta)) (max best (g mv alpha beta))
        (if best < g mv alpha beta then some mv else bm) hab' hcb hbc'
        (fun m hm => hQ m (List.mem_cons_of_mem mv hm)) ⟨w, hw', hQw⟩

/-- C5 (amended).  For every position with the maximizing side (White) to
move that has a legal move delivering immediate checkmate, the full-window
search returns score exactly `+999999` for every depth ≥ 1, and at depth 1 and
depth 2 the returned move is an immediately mating move.  At depth ≥ 3 the
returned move may instead be an earlier-enumerated non-mating move whose
subtree also forces mate (value `999999`), which the strict-improvement rule
never replaces — see the counterexample.  The hypotheses are the chess-derived
facts: non-checkmate evaluations lie strictly below the mate constant,
non-terminal positions have a legal move, checkmate positions are game over,
and pushing a move flips the side to move. -/
theorem minimax_mate_in_one (R : Rules Pos Move)
    (He : ∀ q, R.isCheckmate q = false → -999999 < evaluate R q ∧ evaluate R q < 999999)
    (Hs : ∀ q, R.isGameOver q = false → R.legalMoves q ≠ [])
    (Hc : ∀ q, R.isCheckmate q = true → R.isGameOver q = true)
    (Ht : ∀ q m, R.turn (R.push q m) = !R.turn q)
    (p : Pos) (m1 : Move) (hov : R.isGameOver p = false) (hturn : R.turn p = true)
    (hm : m1 ∈ R.legalMoves p) (hmate : R.isCheckmate (R.push p m1) = true)
    (d : Nat) (hd : 1 ≤ d) :
    (minimax R d p (-(10 ^ 9)) (10 ^ 9) true).1 = 999999 ∧
    (d = 1 ∨ d = 2 →
      ∃ m', (minimax R d p (-(10 ^ 9)) (10 ^ 9) true).2 = some m' ∧
        R.isCheckmate (R.push p m') = true) := by
  have Heb := evaluate_bounds R He
  have hevalmate : ∀ mv, R.isCheckmate (R.push p mv) = true →
      evaluate R (R.push p mv) = 999999 := by
    intro mv hq
    rw [evaluate_checkmate R _ hq, Ht p mv, hturn]
    simp
  obtain ⟨e, rfl⟩ : ∃ e, d = e + 1 := ⟨d - 1, by omega⟩
  have hgm1 : ∀ a, (minimax R e (R.push p m1) a (10 ^ 9) false).1 = 999999 := by
    intro a
    rw [minimax_gameOver R _ (Hc _ hmate)]
    exact hevalmate m1 hmate
  have hgle : ∀ mv ∈ R.legalMoves p, ∀ a,
      (minimax R e (R.push p mv) a (10 ^ 9) false).1 ≤ 999999 :=
    fun mv _ a => (minimax_bounds_999999 R Heb Hs e _ a _ false).2
  constructor
  · simp only [minimax, hov, Bool.false_eq_true, if_false, if_true]
    have hle := maxLoop_fst_le
      (fun mv a b => (minimax R e (R.push p mv) a b false).1) 999999
      (R.legalMoves p) (-(10 ^ 9)) (10 ^ 9) (-(10 ^ 9)) none
      (fun mv _ a b => (minimax_bounds_999999 R Heb Hs e _ a b false).2)
      (by have := sentinel_pos; omega)
    have hge := maxLoop_fst_reaches
      (fun mv a b => (minimax R e (R.push p mv) a b false).1) (10 ^ 9) 999999 m1 hgm1
      (R.legalMoves p) (-(10 ^ 9)) (-(10 ^ 9)) none hm hgle
      (by have := sentinel_pos; omega) (by have := sentinel_pos; omega)
    omega
  · intro hd12
    simp only [minimax, hov, Bool.false_eq_true, if_false, if_true]
    have hQ : ∀ mv ∈ R.legalMoves p,
        (R.isCheckmate (R.push p mv) = true ∧
          ∀ a, (minimax R e (R.push p mv) a (10 ^ 9) false).1 = 999999) ∨
        (¬ R.isCheckmate (R.push p mv) = true ∧
          ∀ a, (minimax R e (R.push p mv) a (10 ^ 9) false).1 < 999999) := by
      intro mv _
      by_cases hq : R.isCheckmate (R.push p mv) = true
      · left
        refine ⟨hq, fun a => ?_⟩
        rw [minimax_gameOver R _ (Hc _ hq)]
        exact hevalmate mv hq
      · right
        refine ⟨hq, fun a => ?_⟩
        have hq' : R.isCheckmate (R.push p mv) = false := by simpa using hq
        rcases hd12 with h1 | h2
        · -- depth 1: the child value is the child's evaluation
          have he0 : e = 0 := by omega
          subst he0
          exact (He _ hq').2
        · -- depth 2: the child is a minimizing node over the opponent's replies
          have he1 : e = 1 := by omega
          subst he1
          by_cases hovc : R.isGameOver (R.push p mv) = true
          · rw [minimax_gameOver R _ hovc]
            exact (He _ hq').2
          · have hovc' : R.isGameOver (R.push p mv) = false := by simpa using hovc
            obtain ⟨m2, rest2, hmoves2⟩ := List.exists_cons_of_ne_nil (Hs _ hovc')
            simp only [minimax, hovc', Bool.false_eq_true, if_false, if_true, hmoves2]
            have hcons := minLoop_cons_fst_le
              (fun mv' _ _ => evaluate R (R.push (R.push p mv) mv'))
              m2 rest2 a (10 ^ 9) (10 ^ 9) none
            have hgrand : evaluate R (R.push (R.push p mv) m2) < 999999 := by
              refine evaluate_lt_mate R He _ ?_
              rw [Ht, Ht, hturn]
              simp
            simp only [] at hcons
            omega
    have := maxLoop_snd_Q
      (fun mv a b => (minimax R e (R.push p mv) a b false).1)
      (fun mv => R.isCheckmate (R.push p mv) = true) (10 ^ 9) 999999
      (R.legalMoves p) (-(10 ^ 9)) (-(10 ^ 9)) none
      (by have := sentinel_pos; omega) (by have := sentinel_pos; omega)
      (by have := sentinel_pos; omega) hQ ⟨m1, hm, hmate⟩
    exact this

/-- C5 counterexample.  In a rules instance satisfying every chess-derived
hypothesis used above (turn alternation, checkmate implies game over, live
positions have moves, non-checkmate evaluations strictly inside the mate
constants), position 0 has White to move and the immediately mating move 1
available, yet the depth-3 full-window search returns move 0 — a non-mating
move that merely forces mate in two — because move 0 is enumerated first, its
subtree value is also `999999`, and the strict-improvement rule never replaces
it with the later equal-valued mating move.  The claim as stated (mating move
returned at every depth ≥ 1) is therefore false. -/
theorem mate_in_one_depth3_counterexample :
    Rc.turn 0 = true ∧ Rc.isGameOver 0 = false ∧
    (1 : Fin 2) ∈ Rc.legalMoves 0 ∧ Rc.isCheckmate (Rc.push 0 1) = true ∧
    (∀ q, Rc.isCheckmate q = false → -999999 < evaluate Rc q ∧ evaluate Rc q < 999999) ∧
    (∀ q, Rc.isGameOver q = false → Rc.legalMoves q ≠ []) ∧
    (∀ q, Rc.isCheckmate q = true → Rc.isGameOver q = true) ∧
    (∀ q m, Rc.turn (Rc.push q m) = !Rc.turn q) ∧
    minimax Rc 3 0 (-(10 ^ 9)) (10 ^ 9) true = (999999, some 0) ∧
    Rc.isCheckmate (Rc.push 0 0) = false := by
  decide

/-- Witness for the amended C5 at the concrete instance, depth 2. -/
theorem minimax_mate_in_one_witness :
    (minimax Rc 2 0 (-(10 ^ 9)) (10 ^ 9) true).1 = 999999 ∧
    (∃ m', (minimax Rc 2 0 (-(10 ^ 9)) (10 ^ 9) true).2 = some m' ∧
      Rc.isCheckmate (Rc.push 0 m') = true) := by
  have h := minimax_mate_in_one Rc (by decide) (by decide) (by decide) (by decide)
    0 1 (by decide) (by decide) (by decide) (by decide) 2 (by norm_num)
  exact ⟨h.1, h.2 (Or.inr rfl)⟩

/-- C8.  The source does not reject a negative depth: the base-case guard
(source line 61) tests `depth == 0` only, so a call with `depth = -1` on a
non-terminal position proceeds into the move loop and keeps recursing with
depths -2, -3, … , stopping only at game-over positions.  In the fuel-indexed
faithful embedding: the depth `-1` call is still recursing after 3 nested
activations (fuel 3 is exhausted), and with sufficient fuel it completes a
full search of the entire remaining game tree and returns a score and a move.
Nothing fails fast, contradicting the claim that a `depth < 0` call is
rejected rather than proceeding with the search. -/
theorem minimaxI_negative_depth_proceeds :
    ((-1 : Int) < 0) ∧ Rc.isGameOver 0 = false ∧
    minimaxI Rc 3 (-1) 0 (-(10 ^ 9)) (10 ^ 9) true = none ∧
    minimaxI Rc 5 (-1) 0 (-(10 ^ 9)) (10 ^ 9) true = some (999999, some 0) := by
  decide

/-- C9.  Gating thread creation on `ai_thinking` does not ensure at most one
search in flight: the flag is set by the worker thread itself as its first
statement, after the driver's `threading.Thread(...).start()` has returned, so
in the interleaving model of the driver a state with two spawned workers —
both started, neither finished — is reachable from the initial state by two
consecutive driver gate evaluations (exactly what the back-to-back
`start_ai_if_needed()` calls at source lines 294 and 323 perform before the
first worker thread runs).  This refutes the claimed single-flight
guarantee. -/
theorem two_ai_workers_reachable :
    ∃ s, DrvReach drvInit s ∧ s.workers.length = 2 := by
  refine ⟨{ drvInit with workers := [WStage.started, WStage.started] }, ?_, rfl⟩
  have h1 : DrvStep drvInit { drvInit with workers := [WStage.started] } :=
    DrvStep.spawn drvInit ⟨rfl, rfl, rfl, rfl⟩
  have h2 : DrvStep { drvInit with workers := [WStage.started] }
      { drvInit with workers := [WStage.started, WStage.started] } :=
    DrvStep.spawn { drvInit with workers := [WStage.started] } ⟨rfl, rfl, rfl, rfl⟩
  exact Relation.ReflTransGen.tail (Relation.ReflTransGen.single h1) h2

end ChessGame
